import Mathlib

/-!
Verification of the detection / evaluation pipeline of training-grammar-guru
(`src/detect.py`, `src/evaluate.py`).

Python floats are embedded as rationals (`ℚ`); the in-place list mutation done
by `fix_zeros` is embedded as explicit state passing (the operation returns the
new contents of the lists it touched); code that can fail returns `Except` or
`Option`.  Functions that `src/evaluate.py` imports from modules that are not
part of this repository snapshot (`harmonic_mean`, `index_of_max`,
`chop_prefix`, `Fixes`, `Agreement`, `Sentences`, `vectorize_tokens`) are
modelled from the specification and carry a doc comment saying so.
-/

namespace Guru

/-- `sys.float_info.epsilon`, the default `epsilon` of `fix_zeros`
(src/evaluate.py line 31): 2.220446049250313e-16 = 2⁻⁵². -/
def floatEpsilon : ℚ := 1 / 2 ^ 52

/-- Python's `math.isclose(a, b)` with its default tolerances
(`rel_tol=1e-09`, `abs_tol=0.0`):
`|a-b| <= max(rel_tol * max(|a|, |b|), abs_tol)`. -/
def mathIsclose (a b : ℚ) : Bool :=
  |a - b| ≤ max ((1 / 10 ^ 9) * max |a| |b|) 0

/-- src/evaluate.py `fix_zeros` (lines 31-37): replace every entry that is
close to zero with epsilon.  The Python function updates `preds` in place;
the embedding returns the new contents of the list. -/
def fix_zeros : List ℚ → List ℚ
  | [] => []
  | pred :: rest =>
      (if mathIsclose pred 0 then floatEpsilon else pred) :: fix_zeros rest

/-- Python's `enumerate(xs, start)`: the elements paired with their indices. -/
def pyEnum (start : ℕ) : List α → List (ℕ × α)
  | [] => []
  | x :: xs => (start, x) :: pyEnum (start + 1) xs

/-- One step of the stable descending-by-value sort: the new element `x` goes
after every earlier element whose value is strictly greater, and also after
earlier elements with an equal value (Python's `sorted` is stable). -/
def insertByValueDesc (x : ℕ × ℚ) : List (ℕ × ℚ) → List (ℕ × ℚ)
  | [] => [x]
  | y :: ys => if x.2 < y.2 then y :: insertByValueDesc x ys else x :: y :: ys

/-- Stable sort of (id, value) pairs by value descending: the embedding of
Python's `sorted(…, key=lambda t: t[1], reverse=True)`. -/
def sortByValueDesc : List (ℕ × ℚ) → List (ℕ × ℚ)
  | [] => []
  | x :: xs => insertByValueDesc x (sortByValueDesc xs)

/-- src/detect.py `rank` (lines 101-103):
`list(sorted(enumerate(predictions), key=lambda t: t[1], reverse=True))`. -/
def rank (predictions : List ℚ) : List (ℕ × ℚ) :=
  sortByValueDesc (pyEnum 0 predictions)

/-- Modelled from the spec: `index_of_max` (imported by src/evaluate.py from
the detect module, not under src/) — "`rank(predictions)` orders vocabulary
ids by probability descending … used … to extract 'top prediction'":
the id of the highest-probability entry. -/
def index_of_max (predictions : List ℚ) : ℕ :=
  ((rank predictions).headD (0, 0)).1

/-- Modelled from the spec: `harmonic_mean` (imported by src/evaluate.py from
the detect module, not under src/) — "the element-wise harmonic mean of the
two distributions". -/
def harmonic_mean (p q : List ℚ) : List ℚ :=
  List.zipWith (fun a b => 2 * a * b / (a + b)) p q

/-- The element-wise harmonic mean with checked division: `none` as soon as a
denominator is zero.  In float terms a zero denominator is exactly where the
formula would produce NaN (0/0) or ±∞ (x/0); `some` means the computation is
everywhere finite. -/
def harmonicMeanChecked : List ℚ → List ℚ → Option (List ℚ)
  | a :: as', b :: bs =>
      if a + b = 0 then none
      else (harmonicMeanChecked as' bs).map (fun rest => 2 * a * b / (a + b) :: rest)
  | _, _ => some []

/-- src/evaluate.py `harmonic_mean_agreement` (lines 42-53).  The Python
function mutates both argument lists through `fix_zeros`; the embedding
returns `(returned value, final prefix_pred, final suffix_pred)`.  The value
is `none` exactly when `paired_rankings[0]` would raise (empty mean). -/
def harmonic_mean_agreement (prefix_pred suffix_pred : List ℚ) :
    Option ℚ × List ℚ × List ℚ :=
  let p := fix_zeros prefix_pred
  let s := fix_zeros suffix_pred
  let mean := harmonic_mean p s
  let paired_rankings := rank mean
  ((paired_rankings.head?).map Prod.snd, p, s)

/-- src/evaluate.py `squared_error_agreement` (lines 56-64):
`-((prefix_pred - suffix_pred) ** 2).sum()`. -/
def squared_error_agreement (prefix_pred suffix_pred : List ℚ) : ℚ :=
  -(((List.zipWith (fun a b => a - b) prefix_pred suffix_pred).map
      (fun d => d ^ 2)).sum)

/-- Modelled from the spec: the `Agreement` record (imported by
src/evaluate.py from the detect module, not under src/) — "Agreement:
{score: float, index: int}"; src/evaluate.py builds it as
`Agreement(squared_error_agreement(...), index)` and prints the first field
as `.probability`. -/
structure Agreement where
  probability : ℚ
  index : ℕ
deriving DecidableEq, Repr

/-- Modelled from the spec: the order `least_agreements.sort()` uses —
"orderable by score ascending (lower = more anomalous); ties broken by
index ascending for determinism". -/
def insertAgreement (x : Agreement) : List Agreement → List Agreement
  | [] => [x]
  | y :: ys =>
      if x.probability < y.probability ∨
         (x.probability = y.probability ∧ x.index ≤ y.index)
      then x :: y :: ys
      else y :: insertAgreement x ys

/-- The embedding of `least_agreements.sort()` (src/evaluate.py line 137):
score ascending, ties by index ascending. -/
def sortAgreements : List Agreement → List Agreement
  | [] => []
  | x :: xs => insertAgreement x (sortAgreements xs)

inductive FixKind where
  | remove
  | insert
  | substitute
deriving DecidableEq, Repr

/-- Modelled from the spec: "Fix: {kind: insert|remove|substitute,
location: int, token: id|None}". -/
structure Fix where
  kind : FixKind
  location : ℕ
  token : Option ℕ
deriving DecidableEq, Repr

/-- Modelled from the spec: the `Fixes` collection (imported by
src/evaluate.py from the detect module, not under src/) — "A collection of
Fixes is order-preserving and de-duplicates by structural equality"; "Each
candidate is validated by applying it to a working copy of the token stream
and invoking the external syntax checker; only syntactically valid results
are retained".  `valid` abstracts "apply the candidate to a working copy and
run the external checker". -/
def addIfValid (valid : Fix → Bool) (st : List Fix) (f : Fix) : List Fix :=
  if valid f then (if f ∈ st then st else st ++ [f]) else st

/-- `fixes.try_remove(pos)` (src/evaluate.py line 143): the remove candidate
at the disagreement position. -/
def try_remove (valid : Fix → Bool) (st : List Fix) (pos : ℕ) : List Fix :=
  addIfValid valid st ⟨FixKind.remove, pos, none⟩

/-- `fixes.try_insert(pos, token)` (src/evaluate.py lines 146-147): the
insert candidate at the disagreement position. -/
def try_insert (valid : Fix → Bool) (st : List Fix) (pos : ℕ) (tok : ℕ) :
    List Fix :=
  addIfValid valid st ⟨FixKind.insert, pos, some tok⟩

/-- The three fix candidates src/evaluate.py lines 142-147 generate for one
disagreement, in generation order: remove, insert the forward-predicted
token, insert the backward-predicted token. -/
def fixCandidates (fwdP bwdP : ℕ → ℕ) (d : Agreement) : List Fix :=
  [⟨FixKind.remove, d.index, none⟩,
   ⟨FixKind.insert, d.index, some (fwdP d.index)⟩,
   ⟨FixKind.insert, d.index, some (bwdP d.index)⟩]

/-- The fix-synthesis loop of `rank_and_fix` (src/evaluate.py lines 134-148):
over the first three sorted agreements, try remove, insert-forward,
insert-backward.  `fwdP`/`bwdP` look up `forwards_predictions[pos]` /
`backwards_predictions[pos]`. -/
def synthesizeFixes (valid : Fix → Bool) (sorted_agreements : List Agreement)
    (fwdP bwdP : ℕ → ℕ) : List Fix :=
  (sorted_agreements.take 3).foldl
    (fun st d =>
      try_insert valid
        (try_insert valid (try_remove valid st d.index) d.index (fwdP d.index))
        d.index (bwdP d.index))
    []

/-- The fix part of `rank_and_fix` (src/evaluate.py lines 134-150):
`least_agreements.sort()`, synthesize over the top 3, then
`fix = None if not fixes else tuple(fixes)[0]`. -/
def fixPhase (valid : Fix → Bool) (least_agreements : List Agreement)
    (fwdP bwdP : ℕ → ℕ) : Option Fix :=
  (synthesizeFixes valid (sortAgreements least_agreements) fwdP bwdP).head?

/-- The fix-describing fields of one result row (src/evaluate.py lines
273-287): `fixed=bool(fix)`, `fkind=fix.kind if fix else None`,
`fpos=fix.location if fix else None`, `ftoken=fix.token if fix else None`. -/
structure ResultFixFields where
  fixed : Bool
  fkind : Option FixKind
  fpos : Option ℕ
  ftoken : Option (Option ℕ)
deriving DecidableEq, Repr

def recordFixFields (fix : Option Fix) : ResultFixFields :=
  { fixed := fix.isSome
    fkind := fix.map Fix.kind
    fpos := fix.map Fix.location
    ftoken := fix.map Fix.token }

/-- Modelled from the spec: `vectorize_tokens` (imported by src/evaluate.py
from the vectorize_tokens module, not under src/) — "File Vector: … always
beginning with the reserved start id and ending with the reserved end id";
"ids 0 and a fixed high id (e.g., 99 …) are reserved for start/end
sentinels". -/
def vectorize_tokens (toIndex : τ → ℕ) (tokens : List τ) : List ℕ :=
  0 :: (tokens.map toIndex ++ [99])

/-- The LOAD-step assertions of the mutation harness (src/evaluate.py lines
249-250): `assert vector[0] == 0, 'not start token'` and
`assert vector[-1] == 99, 'not end token'`; a failed assertion is fatal. -/
def loadAsserts (vector : List ℕ) : Except String Unit :=
  if vector.head? = some 0 then
    if vector.getLast? = some 99 then Except.ok ()
    else Except.error "not end token"
  else Except.error "not start token"

/-- `SensibilityForEvaluation.sentence_length` (src/evaluate.py line 68). -/
def sentence_length : ℕ := 20

/-- Modelled from the spec: the forward orientation of `Sentences`
(imported by src/evaluate.py from the training_utils module, not under
src/) — "forward (context = the W ids immediately preceding `index`)",
paired with its target token, one window per position that has W
predecessors; the window whose target sits at index `s + W` carries context
`V[s .. s+W)`. -/
def forwardSentences (V : List ℕ) (W : ℕ) : List (List ℕ × ℕ) :=
  (List.range (V.length - W)).map
    (fun s => ((V.drop s).take W, V.getD (s + W) 0))

/-- Modelled from the spec: the backward orientation of `Sentences` —
"backward (context = the W ids immediately following `index`, held in an
order consistent with the backward predictor's training orientation)"; the
window whose target sits at index `e` carries context `V[e+1 .. e+1+W)`. -/
def backwardSentences (V : List ℕ) (W : ℕ) : List (List ℕ × ℕ) :=
  (List.range (V.length - W)).map
    (fun e => ((V.drop (e + 1)).take W, V.getD e 0))

/-- Modelled from the spec: `chop_prefix` (imported by src/evaluate.py from
the detect module, not under src/) — the "unshift" transform, dropping the
backward generator's inherent offset (one window size) "so that a zipped
(forward, backward) pairing starts at the same absolute index as the forward
sequence". -/
def chop_prefix (xs : List α) (W : ℕ) : List α := xs.drop W

/-- `SensibilityForEvaluation.contexts` (src/evaluate.py lines 155-165):
`zip(sent_forwards, chop_prefix(sent_backwards))`. -/
def contexts (V : List ℕ) (W : ℕ) : List ((List ℕ × ℕ) × (List ℕ × ℕ)) :=
  List.zip (forwardSentences V W) ( chop_prefix (backwardSentences V W) W)

/-- The detection loop's indexing (src/evaluate.py line 99):
`enumerate(self.contexts(file_vector), start=padding)` with
`padding = sentence_length`. -/
def scoredContexts (V : List ℕ) : List (ℕ × ((List ℕ × ℕ) × (List ℕ × ℕ))) :=
  pyEnum sentence_length (contexts V sentence_length)

/-- The ordering of `rank`'s output: probability strictly descending, ties
broken by id ascending. -/
def rankOrder (a b : ℕ × ℚ) : Prop :=
  b.2 < a.2 ∨ (a.2 = b.2 ∧ a.1 < b.1)

/-! ## Theorems -/

/-! ### Sorting: `rank` and its order -/

lemma insertByValueDesc_perm (x : ℕ × ℚ) (l : List (ℕ × ℚ)) :
    List.Perm (insertByValueDesc x l) (x :: l) := by
  induction l with
  | nil => simp [insertByValueDesc]
  | cons y ys ih =>
      by_cases h : x.2 < y.2
      · simp only [insertByValueDesc, if_pos h]
        exact (ih.cons y).trans (List.Perm.swap x y ys)
      · simp [insertByValueDesc, if_neg h]

lemma mem_insertByValueDesc {z x : ℕ × ℚ} {l : List (ℕ × ℚ)} :
    z ∈ insertByValueDesc x l ↔ z = x ∨ z ∈ l := by
  rw [(insertByValueDesc_perm x l).mem_iff, List.mem_cons]

lemma rankOrder_snd_le {a b : ℕ × ℚ} (h : rankOrder a b) : b.2 ≤ a.2 := by
  rcases h with h | ⟨h, _⟩
  · exact le_of_lt h
  · exact le_of_eq h.symm

lemma insertByValueDesc_pairwise {x : ℕ × ℚ} {l : List (ℕ × ℚ)}
    (hl : l.Pairwise rankOrder) (hid : ∀ y ∈ l, x.1 < y.1) :
    (insertByValueDesc x l).Pairwise rankOrder := by
  induction l with
  | nil => simp [insertByValueDesc, List.Pairwise]
  | cons y ys ih =>
      rcases List.pairwise_cons.mp hl with ⟨hy, hys⟩
      by_cases h : x.2 < y.2
      · simp only [insertByValueDesc, if_pos h]
        refine List.pairwise_cons.mpr ⟨?_, ih hys (fun z hz => hid z (List.mem_cons_of_mem y hz))⟩
        intro z hz
        rcases mem_insertByValueDesc.mp hz with rfl | hz
        · exact Or.inl h
        · exact hy z hz
      · simp only [insertByValueDesc, if_neg h]
        refine List.pairwise_cons.mpr ⟨?_, hl⟩
        intro z hz
        rcases List.mem_cons.mp hz with rfl | hz
        · rcases lt_or_eq_of_le (le_of_not_lt h) with h' | h'
          · exact Or.inl h'
          · exact Or.inr ⟨h'.symm, hid z (List.mem_cons_self z _)⟩
        · have hzy : z.2 ≤ y.2 := rankOrder_snd_le (hy z hz)
          have hyx : y.2 ≤ x.2 := le_of_not_lt h
          rcases lt_or_eq_of_le (hzy.trans hyx) with h' | h'
          · exact Or.inl h'
          · exact Or.inr ⟨h'.symm, hid z (List.mem_cons_of_mem y hz)⟩

lemma sortByValueDesc_perm (l : List (ℕ × ℚ)) :
    List.Perm (sortByValueDesc l) l := by
  induction l with
  | nil => simp [sortByValueDesc]
  | cons x xs ih =>
      exact (insertByValueDesc_perm x (sortByValueDesc xs)).trans (ih.cons x)

lemma sortByValueDesc_pairwise {l : List (ℕ × ℚ)}
    (h : l.Pairwise (fun a b => a.1 < b.1)) :
    (sortByValueDesc l).Pairwise rankOrder := by
  induction l with
  | nil => simp [sortByValueDesc]
  | cons x xs ih =>
      rcases List.pairwise_cons.mp h with ⟨hx, hxs⟩
      exact insertByValueDesc_pairwise (ih hxs)
        (fun y hy => hx y ((sortByValueDesc_perm xs).subset hy))

lemma pyEnum_fst_ge {s : ℕ} {xs : List α} {p : ℕ × α} (h : p ∈ pyEnum s xs) :
    s ≤ p.1 := by
  induction xs generalizing s with
  | nil => simp [pyEnum] at h
  | cons x xs ih =>
      rcases List.mem_cons.mp h with rfl | h
      · exact le_refl _
      · exact (Nat.le_succ s).trans (ih h)

lemma pyEnum_pairwise_fst (s : ℕ) (xs : List α) :
    (pyEnum s xs).Pairwise (fun a b => a.1 < b.1) := by
  induction xs generalizing s with
  | nil => simp [pyEnum]
  | cons x xs ih =>
      refine List.pairwise_cons.mpr ⟨?_, ih (s + 1)⟩
      intro p hp
      exact Nat.lt_of_lt_of_le (Nat.lt_succ_self s) (pyEnum_fst_ge hp)

lemma snd_mem_of_mem_pyEnum {s : ℕ} {xs : List α} {p : ℕ × α}
    (h : p ∈ pyEnum s xs) : p.2 ∈ xs := by
  induction xs generalizing s with
  | nil => simp [pyEnum] at h
  | cons x xs ih =>
      rcases List.mem_cons.mp h with rfl | h
      · exact List.mem_cons_self _ _
      · exact List.mem_cons_of_mem x (ih h)

lemma mem_pyEnum_of_mem {xs : List α} {a : α} (ha : a ∈ xs) (s : ℕ) :
    ∃ k, (k, a) ∈ pyEnum s xs := by
  induction xs generalizing s with
  | nil => simp at ha
  | cons x xs ih =>
      rcases List.mem_cons.mp ha with rfl | ha
      · exact ⟨s, List.mem_cons_self _ _⟩
      · rcases ih ha (s + 1) with ⟨k, hk⟩
        exact ⟨k, List.mem_cons_of_mem _ hk⟩

/-- Claim C3: `rank(predictions)` returns the (id, probability) pairs as a
permutation of `enumerate(predictions)` ordered by probability descending
with ties broken by id ascending; in particular on `[0.1, 0.5, 0.4]` it
returns `[(1,0.5), (2,0.4), (0,0.1)]`. -/
theorem rank_sorts_by_probability_descending :
    (∀ predictions : List ℚ,
        List.Perm (rank predictions) (pyEnum 0 predictions) ∧
        (rank predictions).Pairwise rankOrder) ∧
    rank [1/10, 1/2, 2/5] = [(1, 1/2), (2, 2/5), (0, 1/10)] := by
  refine ⟨fun predictions => ⟨sortByValueDesc_perm _, sortByValueDesc_pairwise (pyEnum_pairwise_fst 0 predictions)⟩, ?_⟩
  norm_num [rank, sortByValueDesc, pyEnum, insertByValueDesc]

/-! ## Squared-error agreement -/

-- ---- C1 / C10: squared error ----

lemma zipWith_sq_sum_eq (p : List ℚ) :
    ∀ q : List ℚ, p.length = q.length →
      ((List.zipWith (fun a b => a - b) p q).map (fun d => d ^ 2)).sum
        = ∑ i ∈ Finset.range p.length, (p.getD i 0 - q.getD i 0) ^ 2 := by
  induction p with
  | nil => intro q h; simp
  | cons a p ih =>
      intro q h
      cases q with
      | nil => simp at h
      | cons b q =>
          simp only [List.length_cons, Nat.succ.injEq] at h
          simp only [List.zipWith_cons_cons, List.map_cons, List.sum_cons,
            List.length_cons]
          rw [Finset.sum_range_succ', ih q h]
          simp [add_comm]

lemma squared_error_agreement_nonpos (p q : List ℚ) :
    squared_error_agreement p q ≤ 0 := by
  unfold squared_error_agreement
  apply neg_nonpos_of_nonneg
  apply List.sum_nonneg
  intro x hx
  rcases List.mem_map.mp hx with ⟨d, _, rfl⟩
  exact sq_nonneg d

lemma squared_error_agreement_comm (p : List ℚ) :
    ∀ q : List ℚ, squared_error_agreement p q = squared_error_agreement q p := by
  induction p with
  | nil => intro q; cases q <;> simp [squared_error_agreement]
  | cons a p ih =>
      intro q
      cases q with
      | nil => simp [squared_error_agreement]
      | cons b q =>
          have h := ih q
          simp only [squared_error_agreement, List.zipWith_cons_cons,
            List.map_cons, List.sum_cons, neg_add] at h ⊢
          have hsq : (a - b) ^ 2 = (b - a) ^ 2 := by ring
          rw [hsq]
          have h' : -(((List.zipWith (fun a b => a - b) p q).map (fun d => d ^ 2)).sum)
              = -(((List.zipWith (fun a b => a - b) q p).map (fun d => d ^ 2)).sum) := h
          rw [← neg_add, ← neg_add]
          rw [neg_eq_iff_eq_neg] at h' ⊢
          rw [neg_neg] at h' ⊢
          rw [h']

/-- Claim C1: on equal-length prediction vectors the agreement score is
`-Σ(p_fwd - p_bwd)²`; for forward `[1,0,0]` / backward `[0,1,0]` at p and
`[0.5,0.5,0]` / `[0.5,0.5,0]` at q, p's score (-2) is strictly lower than
q's (0) and the ascending agreement sort places p before q. -/
theorem squared_error_agreement_formula_and_ordering :
    (∀ p q : List ℚ, p.length = q.length →
        squared_error_agreement p q
          = -(∑ i ∈ Finset.range p.length, (p.getD i 0 - q.getD i 0) ^ 2))
  ∧ squared_error_agreement [1, 0, 0] [0, 1, 0] = -2
  ∧ squared_error_agreement [1/2, 1/2, 0] [1/2, 1/2, 0] = 0
  ∧ squared_error_agreement [1, 0, 0] [0, 1, 0]
      < squared_error_agreement [1/2, 1/2, 0] [1/2, 1/2, 0]
  ∧ sortAgreements
      [⟨squared_error_agreement [1/2, 1/2, 0] [1/2, 1/2, 0], 20⟩,
       ⟨squared_error_agreement [1, 0, 0] [0, 1, 0], 30⟩]
      = [⟨squared_error_agreement [1, 0, 0] [0, 1, 0], 30⟩,
         ⟨squared_error_agreement [1/2, 1/2, 0] [1/2, 1/2, 0], 20⟩] := by
  refine ⟨?_, ?_, ?_, ?_, ?_⟩
  · intro p q h
    unfold squared_error_agreement
    rw [zipWith_sq_sum_eq p q h]
  · norm_num [squared_error_agreement]
  · norm_num [squared_error_agreement]
  · norm_num [squared_error_agreement]
  · norm_num [squared_error_agreement, sortAgreements, insertAgreement]

/-- Claim C10: the squared-error agreement is symmetric, always ≤ 0, and
equals 0 exactly when the two (equal-length) vectors agree element-wise. -/
theorem squared_error_agreement_symm_nonpos_zero :
    (∀ p q : List ℚ, squared_error_agreement p q = squared_error_agreement q p)
  ∧ (∀ p q : List ℚ, squared_error_agreement p q ≤ 0)
  ∧ (∀ p q : List ℚ, p.length = q.length →
      (squared_error_agreement p q = 0 ↔ ∀ i < p.length, p.getD i 0 = q.getD i 0)) := by
  refine ⟨fun p q => squared_error_agreement_comm p q,
         fun p q => squared_error_agreement_nonpos p q, ?_⟩
  intro p q h
  unfold squared_error_agreement
  rw [zipWith_sq_sum_eq p q h, neg_eq_zero]
  rw [Finset.sum_eq_zero_iff_of_nonneg (fun i _ => sq_nonneg _)]
  constructor
  · intro hz i hi
    have h2 := hz i (Finset.mem_range.mpr hi)
    have h0 : p.getD i 0 - q.getD i 0 = 0 := by
      exact pow_eq_zero_iff two_ne_zero |>.mp h2
    exact sub_eq_zero.mp h0
  · intro hz i hi
    have h2 := hz i (Finset.mem_range.mp hi)
    rw [h2]
    ring

/-! ### Harmonic-mean diagnostic and mutation of prediction vectors -/

-- ---- C2: the diagnostic value is the maximum, not the minimum ----

lemma rank_head_is_max {predictions : List ℚ} {i : ℕ} {v : ℚ}
    (h : (rank predictions).head? = some (i, v)) :
    v ∈ predictions ∧ ∀ x ∈ predictions, x ≤ v := by
  have hperm : List.Perm (rank predictions) (pyEnum 0 predictions) :=
    sortByValueDesc_perm _
  have hpair : (rank predictions).Pairwise rankOrder :=
    sortByValueDesc_pairwise (pyEnum_pairwise_fst 0 predictions)
  rcases hr : rank predictions with _ | ⟨hd, rest⟩
  · rw [hr] at h; simp at h
  · rw [hr] at h hperm hpair
    simp only [List.head?_cons, Option.some.injEq] at h
    subst h
    constructor
    · exact snd_mem_of_mem_pyEnum (hperm.subset (List.mem_cons_self _ _))
    · intro x hx
      rcases mem_pyEnum_of_mem hx 0 with ⟨k, hk⟩
      have hk' : (k, x) ∈ (i, v) :: rest := hperm.symm.subset hk
      rcases List.mem_cons.mp hk' with heq | hmem
      · exact le_of_eq (congrArg Prod.snd heq)
      · exact rankOrder_snd_le ((List.pairwise_cons.mp hpair).1 _ hmem)

/-- Claim C2 (amended): the returned diagnostic value is the probability of the
maximum-probability entry of the harmonic-mean vector (the first element of
the descending ranking), not the minimum. -/
theorem harmonic_mean_agreement_returns_max_entry :
    ∀ (prefix_pred suffix_pred : List ℚ) (v : ℚ),
      (harmonic_mean_agreement prefix_pred suffix_pred).1 = some v →
      v ∈ harmonic_mean (fix_zeros prefix_pred) (fix_zeros suffix_pred) ∧
      ∀ x ∈ harmonic_mean (fix_zeros prefix_pred) (fix_zeros suffix_pred), x ≤ v := by
  intro p s v h
  simp only [harmonic_mean_agreement, Option.map_eq_some'] at h
  rcases h with ⟨⟨i, w⟩, hh, rfl⟩
  exact rank_head_is_max hh

/-- Claim C2 witness: at `[3/4, 1/4]` vs `[3/4, 1/4]` the returned value 3/4 is a
maximal entry of the harmonic mean. -/
theorem harmonic_mean_agreement_returns_max_entry_witness :
    (3/4 : ℚ) ∈ harmonic_mean (fix_zeros [3/4, 1/4]) (fix_zeros [3/4, 1/4]) ∧
    ∀ x ∈ harmonic_mean (fix_zeros [3/4, 1/4]) (fix_zeros [3/4, 1/4]), x ≤ (3/4 : ℚ) :=
  harmonic_mean_agreement_returns_max_entry [3/4, 1/4] [3/4, 1/4] (3/4)
    (by norm_num [harmonic_mean_agreement, fix_zeros, mathIsclose, harmonic_mean,
          rank, sortByValueDesc, pyEnum, insertByValueDesc])

/-- Claim C2 counterexample: for forward = backward = `[3/4, 1/4]` the harmonic
mean is `[3/4, 1/4]`, whose minimum-probability entry is 1/4, but the code
returns 3/4: `paired_rankings[0]` is the top of a descending ranking. -/
theorem harmonic_mean_agreement_not_min_counterexample :
    (harmonic_mean_agreement [3/4, 1/4] [3/4, 1/4]).1 = some (3/4) ∧
    harmonic_mean (fix_zeros [3/4, 1/4]) (fix_zeros [3/4, 1/4]) = [3/4, 1/4] ∧
    ((1/4 : ℚ) ∈ ([3/4, 1/4] : List ℚ) ∧ ∀ x ∈ ([3/4, 1/4] : List ℚ), (1/4 : ℚ) ≤ x) ∧
    (3/4 : ℚ) ≠ (1/4 : ℚ) := by
  refine ⟨?_, ?_, ?_, by norm_num⟩
  · norm_num [harmonic_mean_agreement, fix_zeros, mathIsclose, harmonic_mean,
      rank, sortByValueDesc, pyEnum, insertByValueDesc]
  · norm_num [fix_zeros, mathIsclose, harmonic_mean]
  · norm_num

-- ---- C7 / C8: fix_zeros characterization ----

lemma mathIsclose_zero_iff (x : ℚ) : mathIsclose x 0 = true ↔ x = 0 := by
  unfold mathIsclose
  rw [decide_eq_true_eq]
  constructor
  · intro h
    by_contra hx
    have hpos : 0 < |x| := abs_pos.mpr hx
    have h1 : (1 / 10 ^ 9 : ℚ) * max |x| |0| = (1 / 10 ^ 9 : ℚ) * |x| := by
      simp
    rw [sub_zero, h1] at h
    have h2 : max ((1 / 10 ^ 9 : ℚ) * |x|) 0 = (1 / 10 ^ 9 : ℚ) * |x| := by
      apply max_eq_left
      positivity
    rw [h2] at h
    nlinarith
  · intro h
    simp [h]

lemma fix_zeros_eq_map (l : List ℚ) :
    fix_zeros l = l.map (fun x => if x = 0 then floatEpsilon else x) := by
  induction l with
  | nil => rfl
  | cons a l ih =>
      simp only [fix_zeros, List.map_cons, ih]
      congr 1
      by_cases h : a = 0
      · rw [if_pos ((mathIsclose_zero_iff a).mpr h), if_pos h]
      · have hc : ¬(mathIsclose a 0 = true) :=
          fun hc => h ((mathIsclose_zero_iff a).mp hc)
        rw [if_neg hc, if_neg h]

lemma fix_zeros_of_no_zero {l : List ℚ} (h : (0 : ℚ) ∉ l) : fix_zeros l = l := by
  rw [fix_zeros_eq_map]
  conv_rhs => rw [← List.map_id l]
  apply List.map_congr_left
  intro a ha
  have : a ≠ 0 := fun h0 => h (h0 ▸ ha)
  simp [this]

/-- Claim C7 (amended): the harmonic-mean diagnostic does mutate its prediction
vectors — it replaces exactly the exact-zero entries with epsilon; a vector
with no zero entry comes back unchanged. -/
theorem prediction_vectors_mutated_only_at_zeros (prefix_pred suffix_pred : List ℚ) :
    (harmonic_mean_agreement prefix_pred suffix_pred).2.1
        = prefix_pred.map (fun x => if x = 0 then floatEpsilon else x)
  ∧ (harmonic_mean_agreement prefix_pred suffix_pred).2.2
        = suffix_pred.map (fun x => if x = 0 then floatEpsilon else x)
  ∧ ((0 : ℚ) ∉ prefix_pred →
        (harmonic_mean_agreement prefix_pred suffix_pred).2.1 = prefix_pred)
  ∧ ((0 : ℚ) ∉ suffix_pred →
        (harmonic_mean_agreement prefix_pred suffix_pred).2.2 = suffix_pred) := by
  refine ⟨fix_zeros_eq_map _, fix_zeros_eq_map _,
         fun h => fix_zeros_of_no_zero h, fun h => fix_zeros_of_no_zero h⟩

/-- Claim C7 counterexample: `harmonic_mean_agreement` changes a forward prediction
vector that contains an exact zero — `[0, 1]` becomes `[2⁻⁵², 1]`. -/
theorem prediction_vector_mutated_counterexample :
    (harmonic_mean_agreement [0, 1] [1/2, 1/2]).2.1 ≠ [0, 1] := by
  norm_num [harmonic_mean_agreement, fix_zeros, mathIsclose, floatEpsilon]

-- ---- C8 ----

lemma fix_zeros_pos {l : List ℚ} (hl : ∀ x ∈ l, 0 ≤ x) :
    ∀ x ∈ fix_zeros l, 0 < x := by
  rw [fix_zeros_eq_map]
  intro x hx
  rcases List.mem_map.mp hx with ⟨a, ha, rfl⟩
  by_cases h : a = 0
  · simp only [h, if_pos rfl]
    norm_num [floatEpsilon]
  · simp only [if_neg h]
    exact lt_of_le_of_ne (hl a ha) (Ne.symm h)

lemma harmonicMeanChecked_eq_some {p : List ℚ} :
    ∀ {q : List ℚ}, (∀ x ∈ p, 0 < x) → (∀ x ∈ q, 0 < x) →
      harmonicMeanChecked p q = some (harmonic_mean p q) := by
  induction p with
  | nil =>
      intro q _ _
      cases q <;> simp [harmonicMeanChecked, harmonic_mean]
  | cons a p ih =>
      intro q hp hq
      cases q with
      | nil => simp [harmonicMeanChecked, harmonic_mean]
      | cons b q =>
          have ha : 0 < a := hp a (List.mem_cons_self _ _)
          have hb : 0 < b := hq b (List.mem_cons_self _ _)
          have hab : a + b ≠ 0 := by positivity
          simp only [harmonicMeanChecked, if_neg hab, harmonic_mean,
            List.zipWith_cons_cons]
          rw [ih (fun x hx => hp x (List.mem_cons_of_mem _ hx))
              (fun x hx => hq x (List.mem_cons_of_mem _ hx))]
          rfl

/-- Claim C8: on non-negative prediction vectors the diagnostic replaces exactly
the exact-zero entries with the (positive) epsilon before the harmonic mean,
all resulting entries are positive, and the reciprocal-based formula is
everywhere defined (no NaN / ∞: the checked division never hits a zero
denominator). -/
theorem epsilon_substitution_prevents_nan (prefix_pred suffix_pred : List ℚ)
    (hp : ∀ x ∈ prefix_pred, 0 ≤ x) (hq : ∀ x ∈ suffix_pred, 0 ≤ x) :
    fix_zeros prefix_pred
        = prefix_pred.map (fun x => if x = 0 then floatEpsilon else x)
  ∧ 0 < floatEpsilon
  ∧ (∀ x ∈ fix_zeros prefix_pred, 0 < x)
  ∧ (∀ x ∈ fix_zeros suffix_pred, 0 < x)
  ∧ harmonicMeanChecked (fix_zeros prefix_pred) (fix_zeros suffix_pred)
        = some (harmonic_mean (fix_zeros prefix_pred) (fix_zeros suffix_pred)) := by
  refine ⟨fix_zeros_eq_map _, by norm_num [floatEpsilon],
         fix_zeros_pos hp, fix_zeros_pos hq,
         harmonicMeanChecked_eq_some (fix_zeros_pos hp) (fix_zeros_pos hq)⟩

/-- Claim C8 witness: `[0, 1]` against `[1/2, 1/2]`. -/
theorem epsilon_substitution_prevents_nan_witness :
    fix_zeros [0, 1]
        = ([0, 1] : List ℚ).map (fun x => if x = 0 then floatEpsilon else x)
  ∧ 0 < floatEpsilon
  ∧ (∀ x ∈ fix_zeros [0, 1], 0 < x)
  ∧ (∀ x ∈ fix_zeros [1/2, 1/2], 0 < x)
  ∧ harmonicMeanChecked (fix_zeros [0, 1]) (fix_zeros [1/2, 1/2])
        = some (harmonic_mean (fix_zeros [0, 1]) (fix_zeros [1/2, 1/2])) :=
  epsilon_substitution_prevents_nan [0, 1] [1/2, 1/2]
    (by intro x hx; rcases List.mem_cons.mp hx with rfl | hx
        · norm_num
        · rcases List.mem_cons.mp hx with rfl | hx
          · norm_num
          · simp at hx)
    (by intro x hx; rcases List.mem_cons.mp hx with rfl | hx
        · norm_num
        · rcases List.mem_cons.mp hx with rfl | hx
          · norm_num
          · simp at hx)

/-! ### Fix synthesis, sentinels, window alignment -/

-- ---- C4 / C9: fix synthesis ----

lemma head?_foldl_addIfValid (valid : Fix → Bool) :
    ∀ (cs : List Fix) (st : List Fix),
      (cs.foldl (addIfValid valid) st).head?
        = (st ++ cs.filter (fun c => valid c)).head? := by
  intro cs
  induction cs with
  | nil => intro st; simp
  | cons c cs ih =>
      intro st
      by_cases hv : valid c
      · by_cases hm : c ∈ st
        · have hst : addIfValid valid st c = st := by
            simp [addIfValid, hv, hm]
          rw [List.foldl_cons, hst, ih st]
          have hne : st ≠ [] := List.ne_nil_of_mem hm
          rcases st with _ | ⟨a, st'⟩
          · exact absurd rfl hne
          · simp [List.filter_cons, hv]
        · have hst : addIfValid valid st c = st ++ [c] := by
            simp [addIfValid, hv, hm]
          rw [List.foldl_cons, hst, ih (st ++ [c])]
          rw [List.filter_cons_of_pos (by simpa using hv), List.append_assoc]
          rfl
      · have hst : addIfValid valid st c = st := by
          simp [addIfValid, hv]
        rw [List.foldl_cons, hst, ih st,
          List.filter_cons_of_neg (by simpa using hv)]

lemma synthesizeFixes_eq_foldl_flatMap (valid : Fix → Bool)
    (sorted_agreements : List Agreement) (fwdP bwdP : ℕ → ℕ) :
    synthesizeFixes valid sorted_agreements fwdP bwdP
      = ((sorted_agreements.take 3).flatMap (fixCandidates fwdP bwdP)).foldl
          (addIfValid valid) [] := by
  unfold synthesizeFixes
  generalize sorted_agreements.take 3 = ds
  suffices h : ∀ (ds : List Agreement) (st : List Fix),
      ds.foldl (fun st d =>
        try_insert valid
          (try_insert valid (try_remove valid st d.index) d.index (fwdP d.index))
          d.index (bwdP d.index)) st
        = (ds.flatMap (fixCandidates fwdP bwdP)).foldl (addIfValid valid) st from
    h ds []
  intro ds
  induction ds with
  | nil => intro st; simp
  | cons d ds ih =>
      intro st
      rw [List.foldl_cons, ih, List.flatMap_cons, List.foldl_append]
      rfl

/-- Claim C4: the fix synthesizer looks only at the first three entries of the
ranked (ascending) agreement list; for each it generates remove,
insert-forward, insert-backward in that order, and the exposed fix is the
first validated candidate in generation order (`none` if no candidate
validates). -/
theorem fix_is_first_validated_candidate (valid : Fix → Bool)
    (least_agreements : List Agreement) (fwdP bwdP : ℕ → ℕ) :
    fixPhase valid least_agreements fwdP bwdP
      = ((((sortAgreements least_agreements).take 3).flatMap
            (fixCandidates fwdP bwdP)).filter (fun c => valid c)).head? := by
  unfold fixPhase
  rw [synthesizeFixes_eq_foldl_flatMap, head?_foldl_addIfValid, List.nil_append]

/-- Claim C9: a trial in which no synthesized candidate validates exposes no fix,
and its result row records `fixed = false` with empty fix fields. -/
theorem no_validated_fix_records_empty_fields (valid : Fix → Bool)
    (least_agreements : List Agreement) (fwdP bwdP : ℕ → ℕ)
    (h : ∀ c ∈ ((sortAgreements least_agreements).take 3).flatMap
          (fixCandidates fwdP bwdP), valid c = false) :
    fixPhase valid least_agreements fwdP bwdP = none ∧
    recordFixFields (fixPhase valid least_agreements fwdP bwdP)
      = { fixed := false, fkind := none, fpos := none, ftoken := none } := by
  have hnone : fixPhase valid least_agreements fwdP bwdP = none := by
    unfold fixPhase
    rw [synthesizeFixes_eq_foldl_flatMap, head?_foldl_addIfValid, List.nil_append]
    rw [List.filter_eq_nil_iff.mpr (by intro c hc; simpa using h c hc)]
    rfl
  refine ⟨hnone, ?_⟩
  rw [hnone]
  rfl

/-- Claim C9 witness: one agreement, a validator that rejects everything. -/
theorem no_validated_fix_records_empty_fields_witness :
    fixPhase (fun _ => false) [⟨0, 5⟩] (fun _ => 7) (fun _ => 8) = none ∧
    recordFixFields (fixPhase (fun _ => false) [⟨0, 5⟩] (fun _ => 7) (fun _ => 8))
      = { fixed := false, fkind := none, fpos := none, ftoken := none } :=
  no_validated_fix_records_empty_fields (fun _ => false) [⟨0, 5⟩]
    (fun _ => 7) (fun _ => 8) (fun _ _ => rfl)

-- ---- C5: sentinel invariant and the LOAD assertions ----

/-- Claim C5: a file vector is the token sequence's ids wrapped in the start
sentinel 0 and the end sentinel 99 (so its length is the token count plus
two), and the harness's LOAD step succeeds exactly when the sentinel
conditions hold — any violation is a fatal assertion error. -/
theorem file_vector_sentinels_and_load_assert :
    (∀ (τ : Type) (toIndex : τ → ℕ) (tokens : List τ),
        (vectorize_tokens toIndex tokens).length = tokens.length + 2
      ∧ (vectorize_tokens toIndex tokens).head? = some 0
      ∧ (vectorize_tokens toIndex tokens).getLast? = some 99)
  ∧ (∀ vector : List ℕ,
        loadAsserts vector = Except.ok ()
          ↔ vector.head? = some 0 ∧ vector.getLast? = some 99) := by
  constructor
  · intro τ toIndex tokens
    refine ⟨by simp [vectorize_tokens], rfl, ?_⟩
    show ((0 :: tokens.map toIndex) ++ [99]).getLast? = some 99
    exact List.getLast?_concat _
  · intro vector
    unfold loadAsserts
    by_cases h1 : vector.head? = some 0
    · by_cases h2 : vector.getLast? = some 99
      · simp [h1, h2]
      · simp [h1, h2]
    · simp [h1]

-- ---- C6: forward/backward target alignment ----

lemma pyEnum_mem_elim {s : ℕ} {xs : List α} {k : ℕ} {a : α}
    (h : (k, a) ∈ pyEnum s xs) :
    ∃ i, ∃ hi : i < xs.length, k = s + i ∧ xs[i] = a := by
  induction xs generalizing s with
  | nil => simp [pyEnum] at h
  | cons x xs ih =>
      rcases List.mem_cons.mp h with heq | hmem
      · refine ⟨0, by simp, ?_, ?_⟩
        · simpa using congrArg Prod.fst heq
        · simpa using (congrArg Prod.snd heq).symm
      · rcases ih hmem with ⟨i, hi, hk, hget⟩
        exact ⟨i + 1, by simpa using Nat.succ_lt_succ hi,
          by omega, by simpa using hget⟩

lemma contexts_length (V : List ℕ) (W : ℕ) :
    (contexts V W).length = V.length - W - W := by
  simp only [contexts, chop_prefix, List.length_zip, List.length_drop,
    forwardSentences, backwardSentences, List.length_map, List.length_range]
  omega

lemma contexts_getElem (V : List ℕ) (W i : ℕ) (hi : i < (contexts V W).length) :
    (contexts V W)[i]
      = (((V.drop i).take W, V.getD (i + W) 0),
         ((V.drop (W + i + 1)).take W, V.getD (W + i) 0)) := by
  have hlen : i < V.length - W - W := by rwa [contexts_length] at hi
  have hif : i < (forwardSentences V W).length := by
    simp [forwardSentences]; omega
  have hib : W + i < (backwardSentences V W).length := by
    simp [backwardSentences]; omega
  have hib' : i < (( chop_prefix (backwardSentences V W) W)).length := by
    simp [ chop_prefix, backwardSentences]; omega
  unfold contexts
  rw [List.getElem_zip]
  congr 1
  · show (forwardSentences V W)[i] = ((V.drop i).take W, V.getD (i + W) 0)
    unfold forwardSentences
    rw [List.getElem_map, List.getElem_range]
  · show (( chop_prefix (backwardSentences V W) W))[i]
        = ((V.drop (W + i + 1)).take W, V.getD (W + i) 0)
    unfold chop_prefix
    rw [List.getElem_drop]
    unfold backwardSentences
    rw [List.getElem_map, List.getElem_range]

/-- Claim C6: every position the detection loop scores carries a forward window
and a backward window whose targets agree, both equal to the file vector's
entry at that index. -/
theorem forward_backward_targets_aligned (V : List ℕ) (k : ℕ)
    (pr : (List ℕ × ℕ) × (List ℕ × ℕ)) (h : (k, pr) ∈ scoredContexts V) :
    pr.1.2 = V.getD k 0 ∧ pr.2.2 = V.getD k 0 := by
  rcases pyEnum_mem_elim h with ⟨i, hi, hk, hget⟩
  rw [contexts_getElem V sentence_length i hi] at hget
  subst hget
  subst hk
  constructor
  · show V.getD (i + sentence_length) 0 = V.getD (sentence_length + i) 0
    rw [Nat.add_comm]
  · rfl

/-- Claim C6 witness: the 41-entry vector `range 41` has exactly one scored
position, index 20, whose forward and backward targets both equal entry 20. -/
theorem forward_backward_targets_aligned_witness :
    ((((List.range 41).drop 0).take 20, (20 : ℕ)),
     (((List.range 41).drop 21).take 20, (20 : ℕ))).1.2
        = (List.range 41).getD 20 0 ∧
    ((((List.range 41).drop 0).take 20, (20 : ℕ)),
     (((List.range 41).drop 21).take 20, (20 : ℕ))).2.2
        = (List.range 41).getD 20 0 :=
  forward_backward_targets_aligned (List.range 41) 20 _ (by decide)

end Guru
